import Mathlib

/-!
Shallow embedding of the prompt/knowledge-base editor (`app.py`):
the link parser, the path resolvers, the diff engine and the
document-session handlers, together with proofs of the specification
claims about them.

The file system is modelled as a finite map from path strings to file
contents; a directory listing is modelled as the list of file names in
iteration order (an absent directory is `Option.none`).  Python's
Unicode case folding is modelled for the alphabets the application
uses (ASCII and Cyrillic).
-/

namespace PromptEditor

/-- Lower-casing of one character, covering ASCII `A`–`Z` and Cyrillic
`А`–`Я` and `Ё` (the alphabets appearing in the application's marker
phrases and document names); other characters are left unchanged.
Models Python `str.lower` / `re.IGNORECASE` on this alphabet. -/
def lowerChar (c : Char) : Char :=
  if 'A' ≤ c ∧ c ≤ 'Z' then Char.ofNat (c.toNat + 32)
  else if 0x410 ≤ c.toNat ∧ c.toNat ≤ 0x42F then Char.ofNat (c.toNat + 0x20)
  else if c.toNat = 0x401 then Char.ofNat 0x451
  else c

/-- Python's whitespace class (`\s` for `str` patterns, `str.strip`):
ASCII whitespace, the C1 separators, and the Unicode space characters. -/
def isPySpace (c : Char) : Bool :=
  c = ' ' || c = '\t' || c = '\n' || c = '\r' ||
  c.toNat = 0x0B || c.toNat = 0x0C ||
  c.toNat = 0x1C || c.toNat = 0x1D || c.toNat = 0x1E || c.toNat = 0x1F ||
  c.toNat = 0x85 || c.toNat = 0xA0 || c.toNat = 0x1680 ||
  (0x2000 ≤ c.toNat && c.toNat ≤ 0x200A) ||
  c.toNat = 0x2028 || c.toNat = 0x2029 || c.toNat = 0x202F ||
  c.toNat = 0x205F || c.toNat = 0x3000

/-- Lower-casing of a whole string (Python `str.lower`). -/
def lowerStr (s : String) : String :=
  String.mk (s.data.map lowerChar)

/-- Boolean test that `pat` is a prefix of `s` (Python `str.startswith`). -/
def startsWithB : List Char → List Char → Bool
  | [], _ => true
  | _ :: _, [] => false
  | p :: ps, c :: cs => p = c && startsWithB ps cs

/-- Boolean test that `pat` occurs as a contiguous substring of `s`
(Python's `pat in s` for strings). -/
def isSubstrB (pat : List Char) : List Char → Bool
  | [] => startsWithB pat []
  | c :: cs => startsWithB pat (c :: cs) || isSubstrB pat cs

/-- Index of the last `.` in a list of characters, if any. -/
def rfindDot (cs : List Char) : Option Nat :=
  match cs.reverse.findIdx? (fun c => c = '.') with
  | none => none
  | some k => some (cs.length - 1 - k)

/-- Base name of a file without its final extension, modelling
`pathlib.PurePath.stem`: the suffix starts at the last dot `i` with
`0 < i < len(name) - 1`; otherwise the name has no suffix. -/
def stem (name : String) : String :=
  match rfindDot name.data with
  | none => name
  | some i =>
      if 0 < i ∧ i + 1 < name.data.length then String.mk (name.data.take i)
      else name

/-- One pass of whitespace collapsing: every maximal run of whitespace
characters becomes a single space.  `prevSpace` records whether the
previous character belonged to a run whose space was already emitted.
Models `re.sub(r"\s+", " ", s)`. -/
def collapseWsAux (prevSpace : Bool) : List Char → List Char
  | [] => []
  | c :: rest =>
      if isPySpace c then
        if prevSpace then collapseWsAux true rest
        else ' ' :: collapseWsAux true rest
      else c :: collapseWsAux false rest

/-- Removal of trailing whitespace. -/
def stripR (cs : List Char) : List Char :=
  (cs.reverse.dropWhile isPySpace).reverse

/-- Removal of leading and trailing whitespace (Python `str.strip`). -/
def stripBoth (cs : List Char) : List Char :=
  stripR (cs.dropWhile isPySpace)

/-- Model of `normalize_title_for_match`: replace every colon by a
space, collapse whitespace runs to single spaces, strip, lower-case. -/
def normalize_title_for_match (title : String) : String :=
  let no_colon := title.data.map (fun c => if c = ':' then ' ' else c)
  let collapsed := collapseWsAux false no_colon
  String.mk ((stripBoth collapsed).map lowerChar)

/-- The per-file test used by `find_kb_file_by_title`: the normalized
base name starts with the normalized target. -/
def kb_match (target : String) (file : String) : Bool :=
  startsWithB target.data (normalize_title_for_match (stem file)).data

/-- Model of `find_kb_file_by_title`: `dir` is the knowledge-base
directory listing (`none` when the directory does not exist); returns
the first file in iteration order whose normalized base name starts
with the normalized raw title. -/
def find_kb_file_by_title (raw_title : String) (dir : Option (List String)) :
    Option String :=
  match dir with
  | none => none
  | some files =>
      let target := normalize_title_for_match raw_title
      files.find? (kb_match target)

/-- The exact-match test of `find_agent_file_by_name`'s first pass. -/
def agent_exact (target : String) (file : String) : Bool :=
  lowerStr (stem file) == target

/-- The substring test of `find_agent_file_by_name`'s second pass. -/
def agent_substr (target : String) (file : String) : Bool :=
  isSubstrB target.data (lowerStr (stem file)).data

/-- Model of `find_agent_file_by_name`: first pass looks for an exact
(lower-cased) base-name match, the second pass for a substring match;
`dir` is the agents directory listing (`none` when absent). -/
def find_agent_file_by_name (agent_name : String) (dir : Option (List String)) :
    Option String :=
  match dir with
  | none => none
  | some files =>
      let lower_target := lowerStr agent_name
      match files.find? (agent_exact lower_target) with
      | some f => some f
      | none => files.find? (agent_substr lower_target)

/-! ### Link parser (`LINK_PATTERN` and `parse_prompt_with_links`) -/

/-- A parsed segment of the main document, mirroring the dictionaries
produced by `parse_prompt_with_links`: plain text, a knowledge-base
reference (payload title plus the full matched text), or an agent
reference (payload name plus the full matched text). -/
inductive Segment where
  | text (content : String)
  | kb (title : String) (full_match : String)
  | agent (name : String) (full_match : String)
deriving DecidableEq, Repr

/-- The literal keyword phrase of the knowledge-base marker (including
its trailing colon), from `LINK_PATTERN`. -/
def kbPhrase : List Char := "Используй статью из БЗ:".data

/-- The literal keyword phrase of the agent marker, from `LINK_PATTERN`. -/
def agentPhrase : List Char := "вызывай агента с именем".data

/-- Case-insensitive match of a literal pattern against the front of
the input; returns the consumed input characters and the rest. -/
def matchLiteralCI : List Char → List Char → Option (List Char × List Char)
  | [], s => some ([], s)
  | _ :: _, [] => none
  | p :: ps, c :: cs =>
      if lowerChar c = lowerChar p then
        match matchLiteralCI ps cs with
        | none => none
        | some (con, rest) => some (c :: con, rest)
      else none

/-- The character class `[^"]` of the quoted payload. -/
def notQuote (x : Char) : Bool := x != '"'

/-- Match of `"([^"]+)"` at the front of the input: an opening quote, a
non-empty greedy run of non-quote characters, a closing quote.  Returns
the consumed characters, the payload group, and the rest. -/
def matchQuoted (s : List Char) : Option (List Char × List Char × List Char) :=
  match s with
  | [] => none
  | c :: s1 =>
      if c = '"' then
        if (s1.takeWhile notQuote).isEmpty then none
        else
          match s1.dropWhile notQuote with
          | [] => none
          | d :: s3 =>
              if d = '"' then
                some (c :: (s1.takeWhile notQuote ++ [d]), s1.takeWhile notQuote, s3)
              else none
      else none

/-- Match of the knowledge-base alternative of `LINK_PATTERN` at the
front of the input: the keyword phrase, greedy `\s*`, a quoted title. -/
def matchKB (s : List Char) : Option (Segment × List Char) :=
  match matchLiteralCI kbPhrase s with
  | none => none
  | some (c1, r1) =>
      match matchQuoted (r1.dropWhile isPySpace) with
      | none => none
      | some (cq, pl, r3) =>
          some (Segment.kb (String.mk pl)
            (String.mk (c1 ++ r1.takeWhile isPySpace ++ cq)), r3)

/-- Match of the agent alternative of `LINK_PATTERN` at the front of
the input: the keyword phrase, greedy `\s*`, a quoted name. -/
def matchAgent (s : List Char) : Option (Segment × List Char) :=
  match matchLiteralCI agentPhrase s with
  | none => none
  | some (c1, r1) =>
      match matchQuoted (r1.dropWhile isPySpace) with
      | none => none
      | some (cq, pl, r3) =>
          some (Segment.agent (String.mk pl)
            (String.mk (c1 ++ r1.takeWhile isPySpace ++ cq)), r3)

/-- Attempt of `LINK_PATTERN` at the front of the input, trying the
alternatives in the pattern's order (knowledge-base first). -/
def tryMatchAt (s : List Char) : Option (Segment × List Char) :=
  match matchKB s with
  | some r => some r
  | none => matchAgent s

/-- The source text a segment stands for: `content` for plain text and
`full_match` for both reference kinds. -/
def segSource : Segment → String
  | .text t => t
  | .kb _ f => f
  | .agent _ f => f

/-- Left-to-right scan of `LINK_PATTERN.finditer`: at each position try
the pattern; on success record the match and resume after it, otherwise
advance one character (collected as plain text before the next match).
Returns the list of matches, each paired with the plain text preceding
it, plus the trailing plain text.  `fuel` bounds the recursion and is
instantiated with the input length. -/
def scanAux (fuel : Nat) (cs : List Char) :
    List (List Char × Segment) × List Char :=
  match fuel with
  | 0 => ([], cs)
  | fuel + 1 =>
      match tryMatchAt cs with
      | some (seg, rest) =>
          let p := scanAux fuel rest
          (([], seg) :: p.1, p.2)
      | none =>
          match cs with
          | [] => ([], [])
          | c :: cs' =>
              match scanAux fuel cs' with
              | ([], tail) => ([], c :: tail)
              | ((pre, s) :: ms, tail) => ((c :: pre, s) :: ms, tail)

/-- Assembly of the segment list exactly as the loop body of
`parse_prompt_with_links` does: a plain-text segment is emitted before
a match only when the gap is non-empty, and the trailing text is
emitted only when non-empty. -/
def buildSegments : List (List Char × Segment) → List Char → List Segment
  | [], tail => if tail.isEmpty then [] else [Segment.text (String.mk tail)]
  | (pre, s) :: ms, tail =>
      (if pre.isEmpty then [s] else [Segment.text (String.mk pre), s]) ++
        buildSegments ms tail

/-- Model of `parse_prompt_with_links`. -/
def parse_prompt_with_links (text : String) : List Segment :=
  let p := scanAux text.data.length text.data
  buildSegments p.1 p.2

/-- The sequence of marker matches of `LINK_PATTERN.finditer` on the
text (without the plain-text gaps). -/
def finditer_links (text : String) : List Segment :=
  (scanAux text.data.length text.data).1.map (fun pr => pr.2)

/-! ### Diff engine

The source's `make_diff_html` renders an HTML table directly through
Python's `difflib` (an external library); the structured diff result
described by the specification is not materialized in the source.  The
definitions below are therefore modelled from the spec: a line-level
alignment from a longest-matching-block sequence matcher, emitted as
tagged rows. -/

/-- Classification of one diff row. -/
inductive DiffTag where
  | unchanged
  | added
  | removed
  | changed
deriving DecidableEq, Repr

/-- One row of the structured diff: tag, the old and new lines (absent
on the side a row does not touch) and one-based line numbers. -/
structure DiffRow where
  tag : DiffTag
  oldLine : Option String
  newLine : Option String
  oldNum : Option Nat
  newNum : Option Nat
deriving DecidableEq, Repr

/-- Modelled from the spec: split a text into lines on the newline
character, `splitlines`-style — a trailing newline does not produce a
phantom empty last line and the empty text has no lines.  (`acc` holds
the current line reversed.) -/
def splitlinesAux (acc : List Char) : List Char → List (List Char)
  | [] => if acc.isEmpty then [] else [acc.reverse]
  | c :: rest =>
      if c = '\n' then acc.reverse :: splitlinesAux [] rest
      else splitlinesAux (c :: acc) rest

/-- Modelled from the spec: the line sequence of a text. -/
def splitlines (s : String) : List String :=
  (splitlinesAux [] s.data).map String.mk

/-- Length of the common prefix run of two line sequences. -/
def commonRunLen : List String → List String → Nat
  | x :: xs, y :: ys => if x = y then commonRunLen xs ys + 1 else 0
  | _, _ => 0

/-- All candidate matching blocks `(i, j, k)`: at every pair of start
positions, the length of the common run from there. -/
def candidateTriples (a b : List String) : List (Nat × Nat × Nat) :=
  (List.range (a.length + 1)).flatMap (fun i =>
    (List.range (b.length + 1)).map (fun j =>
      (i, j, commonRunLen (a.drop i) (b.drop j))))

/-- Modelled from the spec: the longest matching block of two line
sequences, earliest start positions winning ties (the sequence-matcher
family's `find_longest_match`). -/
def findLongestMatch (a b : List String) : Nat × Nat × Nat :=
  (candidateTriples a b).foldl
    (fun best c => if best.2.2 < c.2.2 then c else best)
    (0, 0, commonRunLen a b)

/-- Modelled from the spec: all matching blocks, found by taking the
longest match and recursing on the gaps to its left and right.  `fuel`
bounds the recursion and is instantiated so that it never runs out. -/
def matchingBlocksAux (fuel : Nat) (a b : List String) :
    List (Nat × Nat × Nat) :=
  match fuel with
  | 0 => []
  | fuel + 1 =>
      let m := findLongestMatch a b
      if m.2.2 = 0 then []
      else
        matchingBlocksAux fuel (a.take m.1) (b.take m.2.1) ++
        [(m.1, m.2.1, m.2.2)] ++
        (matchingBlocksAux fuel (a.drop (m.1 + m.2.2)) (b.drop (m.2.1 + m.2.2))).map
          (fun t => (t.1 + m.1 + m.2.2, t.2.1 + m.2.1 + m.2.2, t.2.2))

/-- Modelled from the spec: the matching blocks in order, closed by the
zero-length terminal block. -/
def matchingBlocks (a b : List String) : List (Nat × Nat × Nat) :=
  matchingBlocksAux (a.length + b.length + 1) a b ++ [(a.length, b.length, 0)]

/-- Classification of a contiguous run of the alignment. -/
inductive OpTag where
  | equal
  | delete
  | insert
  | replace
deriving DecidableEq, Repr

/-- One run of the alignment: a tag with the half-open ranges it covers
on the old (`a1`–`a2`) and new (`b1`–`b2`) side. -/
structure Opcode where
  tag : OpTag
  a1 : Nat
  a2 : Nat
  b1 : Nat
  b2 : Nat
deriving DecidableEq, Repr

/-- Modelled from the spec: turn matching blocks into opcodes, tagging
the gap before each block as `replace`/`delete`/`insert` and the block
itself as `equal`. -/
def opcodesAux (i j : Nat) : List (Nat × Nat × Nat) → List Opcode
  | [] => []
  | (ai, bj, size) :: rest =>
      (if i < ai ∧ j < bj then [⟨OpTag.replace, i, ai, j, bj⟩]
       else if i < ai then [⟨OpTag.delete, i, ai, j, j⟩]
       else if j < bj then [⟨OpTag.insert, i, i, j, bj⟩]
       else []) ++
      (if 0 < size then [⟨OpTag.equal, ai, ai + size, bj, bj + size⟩] else []) ++
      opcodesAux (ai + size) (bj + size) rest

/-- Modelled from the spec: the opcodes of the alignment of two line
sequences. -/
def opcodes (a b : List String) : List Opcode :=
  opcodesAux 0 0 (matchingBlocks a b)

/-- Modelled from the spec: the rows an opcode contributes.  `equal`
runs yield one `unchanged` row per line with both numbers; `delete`
and `insert` runs yield `removed` and `added` rows; `replace` runs pair
old and new lines positionally as `changed`, the unpaired excess
falling back to `removed`/`added`. -/
def rowsForOpcode (old new : List String) (op : Opcode) : List DiffRow :=
  match op.tag with
  | .equal =>
      (List.range (op.a2 - op.a1)).map (fun t =>
        ⟨DiffTag.unchanged, old.get? (op.a1 + t), new.get? (op.b1 + t),
          some (op.a1 + t + 1), some (op.b1 + t + 1)⟩)
  | .delete =>
      (List.range (op.a2 - op.a1)).map (fun t =>
        ⟨DiffTag.removed, old.get? (op.a1 + t), none, some (op.a1 + t + 1), none⟩)
  | .insert =>
      (List.range (op.b2 - op.b1)).map (fun t =>
        ⟨DiffTag.added, none, new.get? (op.b1 + t), none, some (op.b1 + t + 1)⟩)
  | .replace =>
      let n1 := op.a2 - op.a1
      let n2 := op.b2 - op.b1
      let m := min n1 n2
      (List.range m).map (fun t =>
        ⟨DiffTag.changed, old.get? (op.a1 + t), new.get? (op.b1 + t),
          some (op.a1 + t + 1), some (op.b1 + t + 1)⟩) ++
      (List.range (n1 - m)).map (fun t =>
        ⟨DiffTag.removed, old.get? (op.a1 + m + t), none,
          some (op.a1 + m + t + 1), none⟩) ++
      (List.range (n2 - m)).map (fun t =>
        ⟨DiffTag.added, none, new.get? (op.b1 + m + t), none,
          some (op.b1 + m + t + 1)⟩)

/-- Modelled from the spec: `computeDiff` — the structured line diff of
two texts. -/
def computeDiff (oldText newText : String) : List DiffRow :=
  let old := splitlines oldText
  let new := splitlines newText
  ((opcodes old new).map (rowsForOpcode old new)).flatten

/-! ### Document session -/

/-- The per-session state, mirroring the `st.session_state` keys the
source uses: the main document's path, saved baseline (`main_original`)
and edit buffer (`main_edited`), and the optional linked document's
path, label, baseline and edit buffer. -/
structure SessionState where
  main_path : String
  main_original : String
  main_edited : String
  linked_path : Option String
  linked_label : String
  linked_original : String
  linked_edited : String
deriving DecidableEq, Repr

/-- The file-system collaborator, modelled as a map from path to file
content. -/
def FS : Type := String → Option String

/-- Model of `write_text_file`: the written path now holds the content
(parent-directory creation has no counterpart in the map model). -/
def write_text_file (fs : FS) (path content : String) : FS :=
  fun p => if p = path then some content else fs p

/-- Model of the main document's save handler (the button inside the
`edited != main_original` branch): when the buffer equals the baseline
the controls are not rendered and nothing happens; otherwise
`write_text_file` runs — its outcome is the collaborator-supplied
`w` — and only on success is `main_original` advanced to the buffer.
A write exception is returned as `Except.error`, mirroring that the
source has no handler around the write. -/
def main_save_handler (fs : FS) (w : Except String Unit) (s : SessionState) :
    Except String (SessionState × FS) :=
  if s.main_edited = s.main_original then Except.ok (s, fs)
  else
    match w with
    | Except.error e => Except.error e
    | Except.ok _ =>
        Except.ok ({s with main_original := s.main_edited},
          write_text_file fs s.main_path s.main_edited)

/-- Model of the linked document's save handler: rendered only when a
linked document is open and its buffer differs from its baseline;
otherwise as for the main handler. -/
def linked_save_handler (fs : FS) (w : Except String Unit) (s : SessionState) :
    Except String (SessionState × FS) :=
  match s.linked_path with
  | none => Except.ok (s, fs)
  | some p =>
      if s.linked_edited = s.linked_original then Except.ok (s, fs)
      else
        match w with
        | Except.error e => Except.error e
        | Except.ok _ =>
            Except.ok ({s with linked_original := s.linked_edited},
              write_text_file fs p s.linked_edited)

/-- The session state an operation's outcome leaves in place: on an
uncaught exception the ambient `st.session_state` keeps its previous
value. -/
def applyResult (s : SessionState) : Except String (SessionState × FS) → SessionState
  | Except.ok r => r.1
  | Except.error _ => s

/-- Model of `open_linked_target`: resolve the reference in the
knowledge-base or agents directory; on failure emit the warning and
leave the state untouched, on success load the file into the linked
slot.  `readFile` is the file-system read collaborator, and resolved
files are addressed by their names. -/
def open_linked_target (kbDir agentsDir : Option (List String))
    (readFile : String → String) (kind value : String) (s : SessionState) :
    SessionState × Option String :=
  if kind = "kb" then
    match find_kb_file_by_title value kbDir with
    | none => (s, some ("Не найден файл в БЗ для \"" ++ value ++ "\""))
    | some f =>
        let content := readFile f
        ({s with
            linked_path := some f,
            linked_label := "БЗ: " ++ f,
            linked_original := content,
            linked_edited := content}, none)
  else if kind = "agent" then
    match find_agent_file_by_name value agentsDir with
    | none => (s, some ("Не найден файл агента для \"" ++ value ++ "\""))
    | some f =>
        let content := readFile f
        ({s with
            linked_path := some f,
            linked_label := "Агент: " ++ f,
            linked_original := content,
            linked_edited := content}, none)
  else (s, none)

/-! ### Specification-worded definitions

Definitions written from the words of the specification claims, kept
apart from the source embedding so the two can be compared. -/

/-- Normalization as claim C2 words it: remove all colon characters,
collapse runs of whitespace to a single space, trim, lowercase. -/
def claim_normalize_removing_colons (title : String) : String :=
  let no_colon := title.data.filter (fun c => c ≠ ':')
  String.mk ((stripBoth (collapseWsAux false no_colon)).map lowerChar)

/-- Knowledge-base resolution as claim C2 words it, built on the
colon-removing normalization. -/
def claim_resolve_kb_removing (raw_title : String) (dir : Option (List String)) :
    Option String :=
  match dir with
  | none => none
  | some files =>
      files.find? (fun f =>
        startsWithB (claim_normalize_removing_colons raw_title).data
          (claim_normalize_removing_colons (stem f)).data)

/-- The maximal whitespace-separated words of a character list, in
order; `cur` holds the word being accumulated, reversed. -/
def wordsAux (cur : List Char) : List Char → List (List Char)
  | [] => if cur.isEmpty then [] else [cur.reverse]
  | c :: rest =>
      if isPySpace c then
        if cur.isEmpty then wordsAux [] rest
        else cur.reverse :: wordsAux [] rest
      else wordsAux (c :: cur) rest

/-- Interleaving of a list of words with single spaces. -/
def joinWithSpace : List (List Char) → List Char
  | [] => []
  | [w] => w
  | w :: w' :: ws => w ++ ' ' :: joinWithSpace (w' :: ws)

/-- Normalization as the amended claim words it — each colon replaced
by a space, whitespace runs collapsed to single spaces, trimmed,
lower-cased — formulated independently of the source pipeline: the
whitespace-separated words of the colon-replaced title, joined by
single spaces, lower-cased. -/
def spec_normalize_kb (title : String) : String :=
  String.mk
    ((joinWithSpace
        (wordsAux [] (title.data.map (fun c => if c = ':' then ' ' else c)))).map
      lowerChar)

/-- Knowledge-base resolution as the amended claim words it. -/
def spec_resolve_kb (raw_title : String) (dir : Option (List String)) :
    Option String :=
  match dir with
  | none => none
  | some files =>
      files.find? (fun f =>
        startsWithB (spec_normalize_kb raw_title).data
          (spec_normalize_kb (stem f)).data)

/-- Concatenation of the source text of a list of segments, in order. -/
def concatSegs (l : List Segment) : String :=
  (l.map segSource).foldr (fun a b => a ++ b) ""

/-- Strict lexicographic order on character lists by code point. -/
def lexLtChars : List Char → List Char → Bool
  | [], [] => false
  | [], _ :: _ => true
  | _ :: _, [] => false
  | a :: as, b :: bs =>
      if a.toNat < b.toNat then true
      else if b.toNat < a.toNat then false
      else lexLtChars as bs

/-- Case-insensitive name order, used to state what sorting by name
would put first. -/
def caseInsensitiveLt (a b : String) : Bool :=
  lexLtChars (lowerStr a).data (lowerStr b).data

/-! ### Fixtures for concrete instantiations -/

/-- A session with pending edits on both slots. -/
def sampleSession : SessionState :=
  ⟨"main.txt", "A", "B", some "linked.txt", "БЗ: linked.txt", "X", "Y"⟩

/-- The empty file system. -/
def emptyFS : FS := fun _ => none

end PromptEditor

section ScratchChecks
open PromptEditor
example : stem "billing.txt" = "billing" := by decide
example : stem "a.tar.gz" = "a.tar" := by decide
example : stem "ab." = "ab." := by decide
example : normalize_title_for_match "Rule 3:  ORDER" = "rule 3 order" := by decide
example : normalize_title_for_match "a:b" = "a b" := by decide
example : find_kb_file_by_title "Rule 1" (some ["Rule 10 Advanced.txt", "Rule 1 Intro.txt"]) = some "Rule 10 Advanced.txt" := by decide
example : find_agent_file_by_name "billing" (some ["billing.txt", "billing_v2.txt"]) = some "billing.txt" := by decide
example : normalize_title_for_match "Правило 3: ПОДТВЕРЖДЕНИЕ" = "правило 3 подтверждение" := by decide
example : parse_prompt_with_links "" = [] := by decide
example : parse_prompt_with_links "abc" = [Segment.text "abc"] := by decide
example :
    parse_prompt_with_links "смотри Используй статью из БЗ: \"Правило 1\" конец" =
      [Segment.text "смотри ",
       Segment.kb "Правило 1" "Используй статью из БЗ: \"Правило 1\"",
       Segment.text " конец"] := by decide
example :
    parse_prompt_with_links "вызывай агента с именем \"biller\"" =
      [Segment.agent "biller" "вызывай агента с именем \"biller\""] := by decide
example :
    parse_prompt_with_links "ИСПОЛЬЗУЙ СТАТЬЮ ИЗ БЗ: \"x\"" =
      [Segment.kb "x" "ИСПОЛЬЗУЙ СТАТЬЮ ИЗ БЗ: \"x\""] := by decide
example :
    parse_prompt_with_links "Используй статью из БЗ: \"unterminated" =
      [Segment.text "Используй статью из БЗ: \"unterminated"] := by decide
example : splitlines "a\nb\n" = ["a", "b"] := by decide
example : splitlines "" = [] := by decide
example : splitlines "\n" = [""] := by decide
example : (computeDiff "a\nb" "a\nb").map (fun r => r.tag) =
    [DiffTag.unchanged, DiffTag.unchanged] := by decide
example : (computeDiff "a\nb\nc" "a\nx\nc").map (fun r => r.tag) =
    [DiffTag.unchanged, DiffTag.changed, DiffTag.unchanged] := by decide
example : (computeDiff "a" "a\nb").map (fun r => r.tag) =
    [DiffTag.unchanged, DiffTag.added] := by decide
end ScratchChecks

namespace PromptEditor

/-! ### Helper lemmas -/

/-- The empty pattern is a prefix of everything. -/
theorem startsWithB_nil (l : List Char) : startsWithB [] l = true := by
  cases l <;> rfl

/-- The empty pattern is a substring of everything. -/
theorem isSubstrB_nil (l : List Char) : isSubstrB [] l = true := by
  cases l <;> simp [isSubstrB, startsWithB_nil]

/-! ### Claim C3 -/

/-- C3: agent-file resolution lowercases the query and prefers the
first exact (lower-cased) base-name match over any substring match,
falling back to the first substring match only when no exact match
exists; in particular files `billing.txt`/`billing_v2.txt` with query
`billing` resolve to `billing.txt`. -/
theorem c3_agent_exact_over_substring :
    (find_agent_file_by_name "billing" (some ["billing.txt", "billing_v2.txt"]) =
      some "billing.txt") ∧
    (∀ (q : String) (files : List String) (f : String),
      files.find? (agent_exact (lowerStr q)) = some f →
      find_agent_file_by_name q (some files) = some f) ∧
    (∀ (q : String) (files : List String),
      files.find? (agent_exact (lowerStr q)) = none →
      find_agent_file_by_name q (some files) =
        files.find? (agent_substr (lowerStr q))) := by
  refine ⟨by decide, ?_, ?_⟩
  · intro q files f h
    simp [find_agent_file_by_name, h]
  · intro q files h
    simp [find_agent_file_by_name, h]

/-- Concrete instantiation of `c3_agent_exact_over_substring`: an exact
match later in the listing beats a substring match earlier in it. -/
theorem c3_agent_exact_over_substring_witness :
    find_agent_file_by_name "billing" (some ["xbilling_v2.txt", "billing.txt"]) =
      some "billing.txt" :=
  c3_agent_exact_over_substring.2.1 "billing" ["xbilling_v2.txt", "billing.txt"]
    "billing.txt" (by decide)

/-! ### Claim C10 -/

/-- C10: with an empty query, neither resolver returns `none` on an
existing non-empty directory: the knowledge-base resolver returns the
first file of the listing and the agent resolver resolves to some
file. -/
theorem c10_empty_query_resolves :
    ∀ files : List String, files ≠ [] →
      find_kb_file_by_title "" (some files) = files.head? ∧
      (find_agent_file_by_name "" (some files)).isSome = true := by
  intro files hne
  cases files with
  | nil => exact absurd rfl hne
  | cons f fs =>
    constructor
    · have hn : (normalize_title_for_match "").data = [] := rfl
      simp [find_kb_file_by_title, List.find?, kb_match, hn, startsWithB_nil]
    · cases hfind : (f :: fs).find? (agent_exact (lowerStr "")) with
      | some g => simp [find_agent_file_by_name, hfind]
      | none =>
        have hl : (lowerStr "").data = [] := rfl
        simp only [find_agent_file_by_name]
        rw [hfind]
        simp [List.find?, agent_substr, hl, isSubstrB_nil]

/-- Concrete instantiation of `c10_empty_query_resolves`. -/
theorem c10_empty_query_resolves_witness :
    find_kb_file_by_title "" (some ["a.txt"]) = some "a.txt" ∧
    (find_agent_file_by_name "" (some ["a.txt"])).isSome = true := by
  have h := c10_empty_query_resolves ["a.txt"] (by decide)
  exact ⟨h.1, h.2⟩

end PromptEditor

namespace PromptEditor

/-! ### Claim C4 -/

/-- C4: for both document slots, save is a no-op when the buffer equals
the baseline; otherwise a successful save writes the buffer to the
slot's path and advances the baseline to the buffer, so that afterwards
baseline and buffer agree and the file holds the buffer's content. -/
theorem c4_save_semantics :
    ∀ (s : SessionState) (fs : FS) (w : Except String Unit) (p : String),
      (s.main_edited = s.main_original → main_save_handler fs w s = Except.ok (s, fs)) ∧
      (s.linked_path = some p → s.linked_edited = s.linked_original →
        linked_save_handler fs w s = Except.ok (s, fs)) ∧
      (s.main_edited ≠ s.main_original →
        main_save_handler fs (Except.ok ()) s =
          Except.ok ({s with main_original := s.main_edited},
            write_text_file fs s.main_path s.main_edited) ∧
        ({s with main_original := s.main_edited}).main_original =
          ({s with main_original := s.main_edited}).main_edited ∧
        write_text_file fs s.main_path s.main_edited s.main_path =
          some s.main_edited) ∧
      (s.linked_path = some p → s.linked_edited ≠ s.linked_original →
        linked_save_handler fs (Except.ok ()) s =
          Except.ok ({s with linked_original := s.linked_edited},
            write_text_file fs p s.linked_edited) ∧
        ({s with linked_original := s.linked_edited}).linked_original =
          ({s with linked_original := s.linked_edited}).linked_edited ∧
        write_text_file fs p s.linked_edited p = some s.linked_edited) := by
  intro s fs w p
  refine ⟨?_, ?_, ?_, ?_⟩
  · intro h
    simp [main_save_handler, h]
  · intro hp h
    simp [linked_save_handler, hp, h]
  · intro h
    refine ⟨?_, rfl, ?_⟩
    · simp [main_save_handler, h]
    · simp [write_text_file]
  · intro hp h
    refine ⟨?_, rfl, ?_⟩
    · simp [linked_save_handler, hp, h]
    · simp [write_text_file]

/-- Concrete instantiation of `c4_save_semantics`: saving the edited
main document advances the baseline and writes the buffer. -/
theorem c4_save_semantics_witness :
    main_save_handler emptyFS (Except.ok ()) sampleSession =
      Except.ok ({sampleSession with main_original := "B"},
        write_text_file emptyFS "main.txt" "B") ∧
    write_text_file emptyFS "main.txt" "B" "main.txt" = some "B" := by
  have h := (c4_save_semantics sampleSession emptyFS (Except.ok ()) "linked.txt").2.2.1
    (by decide)
  exact ⟨h.1, h.2.2⟩

/-! ### Claim C5 -/

/-- C5 counterexample: a failing write during save is not caught and
turned into a notice — the handler lets the failure escape (the source
has no exception handler around `write_text_file`). -/
theorem c5_counterexample :
    main_save_handler emptyFS (Except.error "ENOSPC") sampleSession =
      Except.error "ENOSPC" := by
  rfl

/-- C5 amended: if the write performed by save fails, the baseline and
the buffer are left unchanged (the session keeps its previous state),
but the failure propagates out of the save handler as an uncaught
fault instead of being turned into a notice. -/
theorem c5_amended_write_failure :
    ∀ (s : SessionState) (fs : FS) (e : String) (p : String),
      (s.main_edited ≠ s.main_original →
        main_save_handler fs (Except.error e) s = Except.error e ∧
        applyResult s (main_save_handler fs (Except.error e) s) = s) ∧
      (s.linked_path = some p → s.linked_edited ≠ s.linked_original →
        linked_save_handler fs (Except.error e) s = Except.error e ∧
        applyResult s (linked_save_handler fs (Except.error e) s) = s) := by
  intro s fs e p
  constructor
  · intro h
    constructor
    · simp [main_save_handler, h]
    · simp [applyResult, main_save_handler, h]
  · intro hp h
    constructor
    · simp [linked_save_handler, hp, h]
    · simp [applyResult, linked_save_handler, hp, h]

/-- Concrete instantiation of `c5_amended_write_failure`. -/
theorem c5_amended_write_failure_witness :
    main_save_handler emptyFS (Except.error "EACCES") sampleSession =
      Except.error "EACCES" ∧
    applyResult sampleSession
      (main_save_handler emptyFS (Except.error "EACCES") sampleSession) =
      sampleSession :=
  (c5_amended_write_failure sampleSession emptyFS "EACCES" "linked.txt").1
    (by decide)

/-! ### Claim C6 -/

/-- C6: when navigation's resolution fails, `open_linked_target`
returns the session state entirely unchanged together with a non-fatal
warning, for both reference kinds. -/
theorem c6_notfound_leaves_state :
    ∀ (kbDir agentsDir : Option (List String)) (readFile : String → String)
      (q : String) (s : SessionState),
      (find_kb_file_by_title q kbDir = none →
        open_linked_target kbDir agentsDir readFile "kb" q s =
          (s, some ("Не найден файл в БЗ для \"" ++ q ++ "\""))) ∧
      (find_agent_file_by_name q agentsDir = none →
        open_linked_target kbDir agentsDir readFile "agent" q s =
          (s, some ("Не найден файл агента для \"" ++ q ++ "\""))) := by
  intro kbDir agentsDir readFile q s
  constructor
  · intro h
    simp [open_linked_target, h]
  · intro h
    simp [open_linked_target, h]

/-- Concrete instantiation of `c6_notfound_leaves_state`: navigating to
a nonexistent knowledge-base rule leaves the session untouched. -/
theorem c6_notfound_leaves_state_witness :
    open_linked_target (some ["Other.txt"]) none (fun _ => "") "kb"
      "Nonexistent Rule" sampleSession =
      (sampleSession, some ("Не найден файл в БЗ для \"" ++ "Nonexistent Rule" ++ "\"")) :=
  (c6_notfound_leaves_state (some ["Other.txt"]) none (fun _ => "")
    "Nonexistent Rule" sampleSession).1 (by decide)

/-! ### Claim C7 -/

/-- C7 counterexample: both base names match the query `Rule 1`, yet
when `Rule 10 Advanced.txt` comes first in directory iteration order it
wins although `Rule 1 Intro.txt` is first in case-insensitive name
order — the code does not sort by name. -/
theorem c7_counterexample :
    find_kb_file_by_title "Rule 1"
        (some ["Rule 10 Advanced.txt", "Rule 1 Intro.txt"]) =
      some "Rule 10 Advanced.txt" ∧
    kb_match (normalize_title_for_match "Rule 1") "Rule 1 Intro.txt" = true ∧
    kb_match (normalize_title_for_match "Rule 1") "Rule 10 Advanced.txt" = true ∧
    caseInsensitiveLt "Rule 1 Intro.txt" "Rule 10 Advanced.txt" = true ∧
    ("Rule 10 Advanced.txt" : String) ≠ "Rule 1 Intro.txt" := by
  refine ⟨by decide, by decide, by decide, by decide, by decide⟩

/-- C7 amended: when several normalized base names start with the
normalized query, the file first in directory iteration order wins; in
particular, with the listing in the order `Rule 1 Intro.txt`,
`Rule 10 Advanced.txt`, the query `Rule 1` resolves to
`Rule 1 Intro.txt`. -/
theorem c7_amended_first_in_iteration_order :
    (find_kb_file_by_title "Rule 1"
        (some ["Rule 1 Intro.txt", "Rule 10 Advanced.txt"]) =
      some "Rule 1 Intro.txt") ∧
    (∀ (q f : String) (files : List String),
      kb_match (normalize_title_for_match q) f = true →
      find_kb_file_by_title q (some (f :: files)) = some f) := by
  constructor
  · decide
  · intro q f files h
    simp [find_kb_file_by_title, List.find?, h]

/-- Concrete instantiation of `c7_amended_first_in_iteration_order`. -/
theorem c7_amended_first_in_iteration_order_witness :
    find_kb_file_by_title "Rule 1" (some ["Rule 10 Advanced.txt"]) =
      some "Rule 10 Advanced.txt" :=
  c7_amended_first_in_iteration_order.2 "Rule 1" "Rule 10 Advanced.txt" []
    (by decide)

end PromptEditor

namespace PromptEditor

/-! ### Round-trip lemmas for the link parser -/

/-- A successful literal match splits the input into the consumed
characters and the rest. -/
theorem matchLiteralCI_append :
    ∀ (ps s con rest : List Char),
      matchLiteralCI ps s = some (con, rest) → con ++ rest = s := by
  intro ps
  induction ps with
  | nil =>
    intro s con rest h
    simp [matchLiteralCI] at h
    simp [← h.1, h.2]
  | cons p ps ih =>
    intro s con rest h
    cases s with
    | nil => simp [matchLiteralCI] at h
    | cons c cs =>
      unfold matchLiteralCI at h
      split at h
      · split at h
        · exact absurd h (by simp)
        · rename_i con1 rest1 heq
          simp at h
          rw [← h.1, ← h.2]
          have := ih cs con1 rest1 heq
          simp [this]
      · exact absurd h (by simp)

/-- A literal match against a non-empty pattern consumes at least one
character. -/
theorem matchLiteralCI_cons_ne_nil :
    ∀ (p : Char) (ps s con rest : List Char),
      matchLiteralCI (p :: ps) s = some (con, rest) → con ≠ [] := by
  intro p ps s con rest h
  cases s with
  | nil => simp [matchLiteralCI] at h
  | cons c cs =>
    unfold matchLiteralCI at h
    split at h
    · split at h
      · exact absurd h (by simp)
      · rename_i con1 rest1 heq
        simp at h
        rw [← h.1]
        simp
    · exact absurd h (by simp)

/-- A successful quoted match splits the input and consumes at least
one character. -/
theorem matchQuoted_split :
    ∀ (s con pl rest : List Char),
      matchQuoted s = some (con, pl, rest) → con ++ rest = s ∧ con ≠ [] := by
  intro s con pl rest h
  cases s with
  | nil => simp [matchQuoted] at h
  | cons c s1 =>
    simp only [matchQuoted] at h
    split at h
    · split at h
      · exact absurd h (by simp)
      · split at h
        · exact absurd h (by simp)
        · rename_i d s3 hd
          split at h
          · simp at h
            obtain ⟨h1, _, h3⟩ := h
            constructor
            · rw [← h1, ← h3]
              have hsplit := List.takeWhile_append_dropWhile notQuote s1
              rw [hd] at hsplit
              simp only [List.cons_append, List.append_assoc,
                List.singleton_append, List.nil_append]
              rw [hsplit]
            · rw [← h1]; simp
          · exact absurd h (by simp)
    · exact absurd h (by simp)

/-- A literal match against any non-empty pattern consumes at least
one character. -/
theorem matchLiteralCI_ne_nil :
    ∀ (ps s con rest : List Char), ps ≠ [] →
      matchLiteralCI ps s = some (con, rest) → con ≠ [] := by
  intro ps s con rest hne h
  cases ps with
  | nil => exact absurd rfl hne
  | cons p ps => exact matchLiteralCI_cons_ne_nil p ps s con rest h

/-- The knowledge-base phrase is non-empty. -/
theorem kbPhrase_ne_nil : kbPhrase ≠ [] := by decide

/-- The agent phrase is non-empty. -/
theorem agentPhrase_ne_nil : agentPhrase ≠ [] := by decide

/-- A successful knowledge-base marker match splits the input into the
stored full match and the rest, and consumes at least one character. -/
theorem matchKB_split :
    ∀ (s : List Char) (seg : Segment) (rest : List Char),
      matchKB s = some (seg, rest) →
      (segSource seg).data ++ rest = s ∧ (segSource seg).data ≠ [] := by
  intro s seg rest h
  simp only [matchKB] at h
  split at h
  · exact absurd h (by simp)
  · rename_i c1 r1 hl
    split at h
    · exact absurd h (by simp)
    · rename_i cq pl r3 hq
      simp at h
      obtain ⟨h1, h2⟩ := h
      have hlit := matchLiteralCI_append kbPhrase s c1 r1 hl
      have hc1 := matchLiteralCI_ne_nil kbPhrase s c1 r1 kbPhrase_ne_nil hl
      have hqs := matchQuoted_split (r1.dropWhile isPySpace) cq pl r3 hq
      have htd := List.takeWhile_append_dropWhile isPySpace r1
      constructor
      · rw [← h1, ← h2]
        simp only [segSource, List.append_assoc]
        rw [hqs.1, htd]
        exact hlit
      · rw [← h1]
        simp only [segSource]
        intro hc
        exact hc1 (List.append_eq_nil.mp hc).1

/-- A successful agent marker match splits the input into the stored
full match and the rest, and consumes at least one character. -/
theorem matchAgent_split :
    ∀ (s : List Char) (seg : Segment) (rest : List Char),
      matchAgent s = some (seg, rest) →
      (segSource seg).data ++ rest = s ∧ (segSource seg).data ≠ [] := by
  intro s seg rest h
  simp only [matchAgent] at h
  split at h
  · exact absurd h (by simp)
  · rename_i c1 r1 hl
    split at h
    · exact absurd h (by simp)
    · rename_i cq pl r3 hq
      simp at h
      obtain ⟨h1, h2⟩ := h
      have hlit := matchLiteralCI_append agentPhrase s c1 r1 hl
      have hc1 := matchLiteralCI_ne_nil agentPhrase s c1 r1 agentPhrase_ne_nil hl
      have hqs := matchQuoted_split (r1.dropWhile isPySpace) cq pl r3 hq
      have htd := List.takeWhile_append_dropWhile isPySpace r1
      constructor
      · rw [← h1, ← h2]
        simp only [segSource, List.append_assoc]
        rw [hqs.1, htd]
        exact hlit
      · rw [← h1]
        simp only [segSource]
        intro hc
        exact hc1 (List.append_eq_nil.mp hc).1

/-- A successful pattern attempt splits the input into the matched
source text and the rest, consuming at least one character. -/
theorem tryMatchAt_split :
    ∀ (s : List Char) (seg : Segment) (rest : List Char),
      tryMatchAt s = some (seg, rest) →
      (segSource seg).data ++ rest = s ∧ (segSource seg).data ≠ [] := by
  intro s seg rest h
  simp only [tryMatchAt] at h
  split at h
  · rename_i r hk
    simp at h
    rw [h] at hk
    exact matchKB_split s seg rest hk
  · exact matchAgent_split s seg rest h

/-- The source text a scan result stands for: the gaps, the match
texts and the trailing text, in order. -/
def flattenScan (p : List (List Char × Segment) × List Char) : List Char :=
  p.1.foldr (fun e acc => e.1 ++ (segSource e.2).data ++ acc) p.2

/-- The scan is lossless: its gaps, matches and tail flatten back to
the input, provided the fuel covers the input length. -/
theorem scanAux_flatten :
    ∀ (fuel : Nat) (cs : List Char), cs.length ≤ fuel →
      flattenScan (scanAux fuel cs) = cs := by
  intro fuel
  induction fuel with
  | zero =>
    intro cs hle
    have : cs = [] := List.length_eq_zero.mp (Nat.le_zero.mp hle)
    subst this
    rfl
  | succ fuel ih =>
    intro cs hle
    cases hm : tryMatchAt cs with
    | some pr =>
      obtain ⟨seg, rest⟩ := pr
      have hsplit := tryMatchAt_split cs seg rest hm
      have hlen : rest.length ≤ fuel := by
        have h1 : (segSource seg).data.length + rest.length = cs.length := by
          rw [← hsplit.1, List.length_append]
        have h2 : (segSource seg).data.length ≠ 0 := by
          intro h0
          exact hsplit.2 (List.length_eq_zero.mp h0)
        omega
      have hrec := ih rest hlen
      simp only [scanAux, hm]
      simp only [flattenScan, List.foldr_cons, List.nil_append] at hrec ⊢
      rw [hrec, hsplit.1]
    | none =>
      cases cs with
      | nil => simp [scanAux, hm, flattenScan]
      | cons c cs1 =>
        have hlen : cs1.length ≤ fuel := by
          simp at hle
          omega
        have hrec := ih cs1 hlen
        simp only [scanAux, hm]
        cases hp : scanAux fuel cs1 with
        | mk ms tail =>
          rw [hp] at hrec
          cases ms with
          | nil =>
            simp only [flattenScan, List.foldr_nil] at hrec ⊢
            rw [hrec]
          | cons e ms1 =>
            simp only [flattenScan, List.foldr_cons, List.cons_append] at hrec ⊢
            rw [hrec]

/-- Peeling one segment off a concatenation. -/
theorem concatSegs_cons (x : Segment) (l : List Segment) :
    concatSegs (x :: l) = segSource x ++ concatSegs l := rfl

/-- The assembled segments of a scan result concatenate back to its
flattening. -/
theorem concatSegs_buildSegments :
    ∀ (ms : List (List Char × Segment)) (tail : List Char),
      (concatSegs (buildSegments ms tail)).data = flattenScan (ms, tail) := by
  intro ms
  induction ms with
  | nil =>
    intro tail
    cases tail with
    | nil => rfl
    | cons c t =>
      simp only [buildSegments, flattenScan, List.foldr_nil]
      simp [concatSegs, segSource, String.data_append]
  | cons e ms ih =>
    intro tail
    obtain ⟨pre, sg⟩ := e
    cases hpre : pre.isEmpty with
    | true =>
      have hpn : pre = [] := by
        cases pre with
        | nil => rfl
        | cons a b => simp [List.isEmpty] at hpre
      subst hpn
      simp only [buildSegments, List.isEmpty_nil, if_pos, List.singleton_append]
      rw [concatSegs_cons, String.data_append, ih tail]
      simp [flattenScan]
    | false =>
      have hne : pre ≠ [] := by
        cases pre with
        | nil => simp [List.isEmpty] at hpre
        | cons a b => simp
      simp only [buildSegments, hpre, Bool.false_eq_true, if_neg,
        not_false_iff, List.cons_append, List.singleton_append,
        List.nil_append]
      rw [concatSegs_cons, concatSegs_cons, String.data_append,
        String.data_append, ih tail]
      simp [flattenScan, segSource, List.append_assoc]

/-- Rebuilding a string from its character list. -/
theorem mk_data (T : String) : String.mk T.data = T := by
  cases T
  rfl

/-- A non-empty string has a non-empty character list. -/
theorem data_isEmpty_eq_false (T : String) (h : T ≠ "") :
    T.data.isEmpty = false := by
  cases T with
  | mk l =>
    cases l with
    | nil => exact absurd rfl h
    | cons a b => rfl

/-! ### Claim C1 -/

/-- C1: for every input text, concatenating in order the full matched
text of every reference segment and the content of every plain-text
segment produced by `parse_prompt_with_links` yields exactly the input
(lossless split). -/
theorem c1_parse_round_trip :
    ∀ T : String, concatSegs (parse_prompt_with_links T) = T := by
  intro T
  apply String.ext
  have h := scanAux_flatten T.data.length T.data (Nat.le_refl _)
  rw [show parse_prompt_with_links T =
      buildSegments (scanAux T.data.length T.data).1
        (scanAux T.data.length T.data).2 from rfl]
  rw [concatSegs_buildSegments]
  exact h

/-! ### Claim C8 -/

/-- C8: the parser is total by construction (it is a Lean function and
raises nothing); the empty input parses to no segments, and a non-empty
input on which the pattern finds no match parses to a single plain-text
segment holding the whole input. -/
theorem c8_parse_no_match_degenerates :
    parse_prompt_with_links "" = [] ∧
    ∀ T : String, T ≠ "" → finditer_links T = [] →
      parse_prompt_with_links T = [Segment.text T] := by
  constructor
  · rfl
  · intro T hne hnm
    have h1 : (scanAux T.data.length T.data).1 = [] :=
      List.map_eq_nil_iff.mp hnm
    have h := scanAux_flatten T.data.length T.data (Nat.le_refl _)
    have h2 : (scanAux T.data.length T.data).2 = T.data := by
      simp only [flattenScan, h1, List.foldr_nil] at h
      exact h
    rw [show parse_prompt_with_links T =
        buildSegments (scanAux T.data.length T.data).1
          (scanAux T.data.length T.data).2 from rfl]
    rw [h1, h2]
    simp only [buildSegments, data_isEmpty_eq_false T hne,
      Bool.false_eq_true, if_neg, not_false_iff, mk_data]

/-- Concrete instantiation of `c8_parse_no_match_degenerates` on a
marker-free text. -/
theorem c8_parse_no_match_degenerates_witness :
    parse_prompt_with_links "no markers here" =
      [Segment.text "no markers here"] :=
  c8_parse_no_match_degenerates.2 "no markers here" (by decide) (by decide)

/-! ### Diff lemmas -/

/-- A sequence shares a full-length common run with itself. -/
theorem commonRunLen_self : ∀ (l : List String), commonRunLen l l = l.length := by
  intro l
  induction l with
  | nil => rfl
  | cons x xs ih => simp [commonRunLen, ih]

/-- A common run is no longer than the left sequence. -/
theorem commonRunLen_le_left :
    ∀ (u v : List String), commonRunLen u v ≤ u.length := by
  intro u
  induction u with
  | nil => intro v; cases v <;> simp [commonRunLen]
  | cons x xs ih =>
    intro v
    cases v with
    | nil => simp [commonRunLen]
    | cons y ys =>
      simp only [commonRunLen]
      split
      · have := ih ys
        simp
        omega
      · simp

/-- The best-candidate fold keeps its seed when no candidate strictly
beats it. -/
theorem foldl_best_keep :
    ∀ (l : List (Nat × Nat × Nat)) (b : Nat × Nat × Nat),
      (∀ c ∈ l, ¬ b.2.2 < c.2.2) →
      l.foldl (fun best c => if best.2.2 < c.2.2 then c else best) b = b := by
  intro l
  induction l with
  | nil => intro b _; rfl
  | cons c l ih =>
    intro b hall
    simp only [List.foldl_cons]
    rw [if_neg (hall c (by simp))]
    exact ih b (fun d hd => hall d (by simp [hd]))

/-- Every candidate block of a self-comparison is bounded by the
sequence length. -/
theorem candidateTriples_self_bound :
    ∀ (a : List String), ∀ c ∈ candidateTriples a a, c.2.2 ≤ a.length := by
  intro a c hc
  simp only [candidateTriples, List.mem_flatMap, List.mem_map,
    List.mem_range] at hc
  obtain ⟨i, _, j, _, heq⟩ := hc
  rw [← heq]
  calc commonRunLen (a.drop i) (a.drop j) ≤ (a.drop i).length :=
        commonRunLen_le_left _ _
    _ ≤ a.length := by simp [List.length_drop]

/-- The longest matching block of a sequence with itself is the whole
sequence starting at the origin. -/
theorem findLongestMatch_self :
    ∀ (a : List String), findLongestMatch a a = (0, 0, a.length) := by
  intro a
  unfold findLongestMatch
  rw [commonRunLen_self]
  apply foldl_best_keep
  intro c hc
  exact Nat.not_lt.mpr (candidateTriples_self_bound a c hc)

/-- No matching blocks arise from two empty sequences. -/
theorem matchingBlocksAux_nil :
    ∀ (f : Nat), matchingBlocksAux f ([] : List String) [] = [] := by
  intro f
  cases f with
  | zero => rfl
  | succ f => rfl

/-- A non-empty sequence against itself has the single full-length
matching block. -/
theorem matchingBlocksAux_self :
    ∀ (n : Nat) (a : List String), a ≠ [] →
      matchingBlocksAux (n + 1) a a = [(0, 0, a.length)] := by
  intro n a hne
  have hlen : a.length ≠ 0 := fun h0 => hne (List.length_eq_zero.mp h0)
  simp only [matchingBlocksAux, findLongestMatch_self]
  rw [if_neg hlen]
  simp [List.take_zero, List.drop_length, matchingBlocksAux_nil]

/-- The opcodes of a self-comparison: empty for the empty text, one
full `equal` run otherwise. -/
theorem opcodes_self :
    ∀ (a : List String),
      opcodes a a =
        if a.length = 0 then []
        else [⟨OpTag.equal, 0, a.length, 0, a.length⟩] := by
  intro a
  cases a with
  | nil => rfl
  | cons y ys =>
    have hne : (y :: ys) ≠ [] := by simp
    have hmb : matchingBlocks (y :: ys) (y :: ys) =
        [(0, 0, (y :: ys).length),
         ((y :: ys).length, (y :: ys).length, 0)] := by
      unfold matchingBlocks
      rw [matchingBlocksAux_self ((y :: ys).length + (y :: ys).length) (y :: ys) hne]
      rfl
    unfold opcodes
    rw [hmb]
    have hpos : 0 < (y :: ys).length := by simp
    simp [opcodesAux, Nat.lt_irrefl, hpos, Nat.pos_iff_ne_zero.mp hpos]

/-- The structured self-diff in closed form: one `unchanged` row per
line. -/
theorem computeDiff_self_general :
    ∀ (a : List String),
      ((opcodes a a).map (rowsForOpcode a a)).flatten =
        (List.range a.length).map (fun t =>
          (⟨DiffTag.unchanged, a.get? t, a.get? t, some (t + 1), some (t + 1)⟩ :
            DiffRow)) := by
  intro a
  rw [opcodes_self]
  cases ha : a.length with
  | zero => simp
  | succ n =>
    rw [if_neg (by omega)]
    simp only [List.map_cons, List.map_nil, List.flatten_cons,
      List.flatten_nil, List.append_nil]
    simp [rowsForOpcode, Nat.sub_zero, Nat.zero_add, ha]

/-! ### Claim C9 -/

/-- C9: the diff of a text against itself has exactly one row per line
of the text, and every row is tagged `unchanged` — no row is `added`,
`removed` or `changed`. -/
theorem c9_diff_self_unchanged :
    ∀ x : String,
      (computeDiff x x).length = (splitlines x).length ∧
      ∀ r ∈ computeDiff x x, r.tag = DiffTag.unchanged := by
  intro x
  have hc : computeDiff x x =
      (List.range (splitlines x).length).map (fun t =>
        (⟨DiffTag.unchanged, (splitlines x).get? t, (splitlines x).get? t,
          some (t + 1), some (t + 1)⟩ : DiffRow)) := by
    show ((opcodes (splitlines x) (splitlines x)).map
        (rowsForOpcode (splitlines x) (splitlines x))).flatten = _
    exact computeDiff_self_general (splitlines x)
  rw [hc]
  constructor
  · simp
  · intro r hr
    simp only [List.mem_map, List.mem_range] at hr
    obtain ⟨t, _, ht⟩ := hr
    rw [← ht]

/-- Concrete instantiation of `c9_diff_self_unchanged` on a two-line
text, including one concrete row's membership. -/
theorem c9_diff_self_unchanged_witness :
    (computeDiff "a\nb" "a\nb").length = (splitlines "a\nb").length ∧
    (⟨DiffTag.unchanged, some "a", some "a", some 1, some 1⟩ : DiffRow).tag =
      DiffTag.unchanged :=
  ⟨(c9_diff_self_unchanged "a\nb").1,
   (c9_diff_self_unchanged "a\nb").2
     ⟨DiffTag.unchanged, some "a", some "a", some 1, some 1⟩ (by decide)⟩

/-! ### Normalization lemmas -/

/-- Dropping over an append when the left part does not vanish. -/
theorem dropWhile_append_of_ne_nil :
    ∀ (l m : List Char) (p : Char → Bool), l.dropWhile p ≠ [] →
      (l ++ m).dropWhile p = l.dropWhile p ++ m := by
  intro l
  induction l with
  | nil => intro m p h; exact absurd rfl h
  | cons c l ih =>
    intro m p h
    cases hc : p c with
    | true =>
      rw [List.dropWhile_cons_of_pos hc] at h
      simp only [List.cons_append, List.dropWhile_cons_of_pos hc]
      exact ih m p h
    | false =>
      have hcn : ¬ p c = true := by simp [hc]
      simp [List.dropWhile_cons_of_neg hcn, List.cons_append]

/-- Dropping over an append when the left part vanishes entirely. -/
theorem dropWhile_append_of_nil :
    ∀ (l m : List Char) (p : Char → Bool), l.dropWhile p = [] →
      (l ++ m).dropWhile p = m.dropWhile p := by
  intro l
  induction l with
  | nil => intro m p _; rfl
  | cons c l ih =>
    intro m p h
    cases hc : p c with
    | true =>
      rw [List.dropWhile_cons_of_pos hc] at h
      simp only [List.cons_append, List.dropWhile_cons_of_pos hc]
      exact ih m p h
    | false =>
      rw [List.dropWhile_cons_of_neg (by simp [hc])] at h
      exact absurd h (by simp)

/-- The head surviving a `dropWhile` falsifies the predicate. -/
theorem head_dropWhile_false :
    ∀ (l : List Char) (p : Char → Bool) (c : Char) (r : List Char),
      l.dropWhile p = c :: r → p c = false := by
  intro l
  induction l with
  | nil => intro p c r h; simp at h
  | cons a l ih =>
    intro p c r h
    cases ha : p a with
    | true =>
      rw [List.dropWhile_cons_of_pos ha] at h
      exact ih p c r h
    | false =>
      rw [List.dropWhile_cons_of_neg (by simp [ha])] at h
      cases h
      exact ha

/-- Stripping the right of an all-non-space list is the identity. -/
theorem stripR_of_nonspace :
    ∀ (l : List Char), (∀ c ∈ l, isPySpace c = false) → stripR l = l := by
  intro l h
  unfold stripR
  have : l.reverse.dropWhile isPySpace = l.reverse := by
    cases hrev : l.reverse with
    | nil => rfl
    | cons a t =>
      have ha : isPySpace a = false := by
        apply h
        rw [← List.mem_reverse, hrev]
        simp
      rw [List.dropWhile_cons_of_neg (by simp [ha])]
  rw [this, List.reverse_reverse]

/-- A trailing single space is removed by the right strip. -/
theorem stripR_append_space :
    ∀ (l : List Char), stripR (l ++ [' ']) = stripR l := by
  intro l
  unfold stripR
  rw [List.reverse_append]
  simp only [List.reverse_cons, List.reverse_nil, List.nil_append,
    List.singleton_append]
  rw [List.dropWhile_cons_of_pos (by decide)]

/-- The right strip distributes over an append whose right part does
not strip to nothing. -/
theorem stripR_append_of_ne_nil :
    ∀ (l X : List Char), stripR X ≠ [] → stripR (l ++ X) = l ++ stripR X := by
  intro l X h
  have hx : X.reverse.dropWhile isPySpace ≠ [] := by
    intro h0
    apply h
    unfold stripR
    rw [h0]
    rfl
  unfold stripR
  rw [List.reverse_append, dropWhile_append_of_ne_nil _ _ _ hx,
    List.reverse_append, List.reverse_reverse]

/-- Right-stripping a list with a non-space head is non-empty. -/
theorem stripR_cons_nonspace_ne_nil :
    ∀ (c : Char) (X : List Char), isPySpace c = false →
      stripR (c :: X) ≠ [] := by
  intro c X hc
  unfold stripR
  have : (c :: X).reverse = X.reverse ++ [c] := by simp
  rw [this]
  cases hd : X.reverse.dropWhile isPySpace with
  | nil =>
    rw [dropWhile_append_of_nil _ _ _ hd,
      List.dropWhile_cons_of_neg (by simp [hc])]
    simp
  | cons a t =>
    rw [dropWhile_append_of_ne_nil _ _ _ (by rw [hd]; simp)]
    simp

/-- The collapse continuation after a space equals a fresh collapse of
the input with its leading whitespace dropped. -/
theorem collapseWsAux_true_eq :
    ∀ (cs : List Char),
      collapseWsAux true cs = collapseWsAux false (cs.dropWhile isPySpace) := by
  intro cs
  induction cs with
  | nil => rfl
  | cons c l ih =>
    cases hc : isPySpace c with
    | true =>
      simp only [collapseWsAux, hc, if_pos, List.dropWhile_cons_of_pos hc]
      exact ih
    | false =>
      have hcn : ¬ isPySpace c = true := by simp [hc]
      simp [collapseWsAux, hc, List.dropWhile_cons_of_neg hcn]

/-- Leading whitespace does not contribute words. -/
theorem wordsAux_dropWhile :
    ∀ (cs : List Char),
      wordsAux [] cs = wordsAux [] (cs.dropWhile isPySpace) := by
  intro cs
  induction cs with
  | nil => rfl
  | cons c l ih =>
    cases hc : isPySpace c with
    | true =>
      simp only [wordsAux, hc, if_pos, List.isEmpty_nil,
        List.dropWhile_cons_of_pos hc]
      exact ih
    | false =>
      rw [List.dropWhile_cons_of_neg (by simp [hc])]

/-- Collapsing commutes with dropping leading whitespace. -/
theorem dropWhile_collapseWs :
    ∀ (cs : List Char),
      (collapseWsAux false cs).dropWhile isPySpace =
        collapseWsAux false (cs.dropWhile isPySpace) := by
  intro cs
  induction cs with
  | nil => rfl
  | cons c l ih =>
    cases hc : isPySpace c with
    | true =>
      simp only [collapseWsAux, hc, if_pos, List.dropWhile_cons_of_pos hc,
        List.dropWhile_cons_of_pos (show isPySpace ' ' = true by decide),
        collapseWsAux_true_eq]
      cases hd : l.dropWhile isPySpace with
      | nil => rfl
      | cons d r =>
        have hdf : isPySpace d = false := head_dropWhile_false l isPySpace d r hd
        have hdn : ¬ isPySpace d = true := by simp [hdf]
        simp only [collapseWsAux, hdf, Bool.false_eq_true, if_neg,
          not_false_iff]
        rw [List.dropWhile_cons_of_pos (show isPySpace ' ' = true by decide),
          List.dropWhile_cons_of_neg hdn]
    | false =>
      have hcn : ¬ isPySpace c = true := by simp [hc]
      simp [collapseWsAux, hc, List.dropWhile_cons_of_neg hcn]

/-- A non-empty accumulator always produces at least one word. -/
theorem wordsAux_ne_nil :
    ∀ (cs cur : List Char), cur ≠ [] → wordsAux cur cs ≠ [] := by
  intro cs
  induction cs with
  | nil =>
    intro cur h
    simp only [wordsAux]
    rw [if_neg (by simpa using h)]
    simp
  | cons c l ih =>
    intro cur h
    cases hc : isPySpace c with
    | true =>
      simp only [wordsAux, hc, if_pos]
      rw [if_neg (by simpa using h)]
      simp
    | false =>
      simp only [wordsAux, hc, Bool.false_eq_true, if_neg, not_false_iff]
      exact ih (c :: cur) (by simp)

/-- Dropping a prefix cannot lengthen a list. -/
theorem length_dropWhile_le :
    ∀ (p : Char → Bool) (l : List Char),
      (l.dropWhile p).length ≤ l.length := by
  intro p l
  induction l with
  | nil => simp
  | cons c l ih =>
    cases hc : p c with
    | true =>
      rw [List.dropWhile_cons_of_pos hc]
      exact Nat.le_trans ih (by simp)
    | false =>
      have hcn : ¬ p c = true := by simp [hc]
      rw [List.dropWhile_cons_of_neg hcn]

/-- Base case of the collapse/words correspondence: an exhausted input
leaves exactly the accumulated word. -/
theorem collapse_words_base :
    ∀ (cur : List Char), (∀ c ∈ cur, isPySpace c = false) →
      stripR cur.reverse = joinWithSpace (wordsAux cur []) := by
  intro cur hcur
  rw [stripR_of_nonspace cur.reverse
    (fun c hc => hcur c (List.mem_reverse.mp hc))]
  cases cur with
  | nil => rfl
  | cons a t => simp [wordsAux, joinWithSpace]

/-- The collapse of the remaining input, stripped on the right and
prefixed by the accumulated word, equals the joined words of the
remaining input. -/
theorem collapse_strip_words :
    ∀ (n : Nat) (cs cur : List Char), cs.length ≤ n →
      (∀ c ∈ cur, isPySpace c = false) →
      (cur = [] → ∀ c r, cs = c :: r → isPySpace c = false) →
      stripR (cur.reverse ++ collapseWsAux false cs) =
        joinWithSpace (wordsAux cur cs) := by
  intro n
  induction n with
  | zero =>
    intro cs cur hle hcur _
    have hnil : cs = [] := List.length_eq_zero.mp (Nat.le_zero.mp hle)
    subst hnil
    simpa [collapseWsAux] using collapse_words_base cur hcur
  | succ n ih =>
    intro cs cur hle hcur hlead
    cases cs with
    | nil => simpa [collapseWsAux] using collapse_words_base cur hcur
    | cons c rest =>
      cases hsp : isPySpace c with
      | false =>
        have e1 : collapseWsAux false (c :: rest) =
            c :: collapseWsAux false rest := by
          simp [collapseWsAux, hsp]
        have e2 : wordsAux cur (c :: rest) = wordsAux (c :: cur) rest := by
          simp [wordsAux, hsp]
        rw [e1, e2]
        have hrec := ih rest (c :: cur)
          (by simp at hle; omega)
          (by
            intro d hd
            rcases List.mem_cons.mp hd with h1 | h2
            · rw [h1]; exact hsp
            · exact hcur d h2)
          (by intro h; exact absurd h (by simp))
        rw [show cur.reverse ++ c :: collapseWsAux false rest =
            (c :: cur).reverse ++ collapseWsAux false rest from by simp]
        exact hrec
      | true =>
        have hcur_ne : cur ≠ [] := by
          intro hnil
          have := hlead hnil c rest rfl
          rw [hsp] at this
          exact absurd this (by simp)
        have e1 : collapseWsAux false (c :: rest) =
            ' ' :: collapseWsAux false (rest.dropWhile isPySpace) := by
          simp [collapseWsAux, hsp, collapseWsAux_true_eq]
        have e2 : wordsAux cur (c :: rest) =
            cur.reverse :: wordsAux [] (rest.dropWhile isPySpace) := by
          simp only [wordsAux, hsp, if_pos]
          rw [if_neg (by simpa using hcur_ne), wordsAux_dropWhile]
        rw [e1, e2]
        cases hr : rest.dropWhile isPySpace with
        | nil =>
          show stripR (cur.reverse ++ [' ']) =
            joinWithSpace (cur.reverse :: wordsAux [] [])
          rw [stripR_append_space,
            stripR_of_nonspace cur.reverse
              (fun d hd => hcur d (List.mem_reverse.mp hd))]
          simp [wordsAux, joinWithSpace]
        | cons d r2 =>
          have hdf : isPySpace d = false :=
            head_dropWhile_false rest isPySpace d r2 hr
          have hlen2 : (d :: r2).length ≤ n := by
            have hdl : (rest.dropWhile isPySpace).length ≤ rest.length :=
              length_dropWhile_le isPySpace rest
            rw [hr] at hdl
            simp at hle
            omega
          have hrec := ih (d :: r2) [] hlen2
            (by intro x hx; exact absurd hx (List.not_mem_nil x))
            (by
              intro _ c0 r0 heq
              cases heq
              exact hdf)
          simp only [List.reverse_nil, List.nil_append] at hrec
          have hX : collapseWsAux false (d :: r2) =
              d :: collapseWsAux false r2 := by
            simp [collapseWsAux, hdf]
          have hXne : stripR (collapseWsAux false (d :: r2)) ≠ [] := by
            rw [hX]
            exact stripR_cons_nonspace_ne_nil d _ hdf
          have hW : wordsAux [] (d :: r2) ≠ [] := by
            simp only [wordsAux, hdf, Bool.false_eq_true, if_neg,
              not_false_iff]
            exact wordsAux_ne_nil r2 [d] (by simp)
          obtain ⟨w, ws, hws⟩ := List.exists_cons_of_ne_nil hW
          rw [show cur.reverse ++ ' ' :: collapseWsAux false (d :: r2) =
              (cur.reverse ++ [' ']) ++ collapseWsAux false (d :: r2) from
            by simp]
          rw [stripR_append_of_ne_nil _ _ hXne, hrec, hws]
          simp [joinWithSpace]

/-- The source normalization coincides with the words-joined
formulation of the amended claim. -/
theorem normalize_eq_spec :
    ∀ s : String, normalize_title_for_match s = spec_normalize_kb s := by
  intro s
  have hcore :
      stripBoth (collapseWsAux false
          (s.data.map (fun c => if c = ':' then ' ' else c))) =
        joinWithSpace (wordsAux []
          (s.data.map (fun c => if c = ':' then ' ' else c))) := by
    unfold stripBoth
    rw [dropWhile_collapseWs, wordsAux_dropWhile]
    have h := collapse_strip_words
      ((s.data.map (fun c => if c = ':' then ' ' else c)).dropWhile
        isPySpace).length
      ((s.data.map (fun c => if c = ':' then ' ' else c)).dropWhile isPySpace)
      []
      (Nat.le_refl _)
      (fun c hc => absurd hc (List.not_mem_nil c))
      (fun _ c r hcr => head_dropWhile_false _ isPySpace c r hcr)
    simpa using h
  show String.mk
      ((stripBoth (collapseWsAux false
        (s.data.map (fun c => if c = ':' then ' ' else c)))).map lowerChar) =
    String.mk
      ((joinWithSpace (wordsAux []
        (s.data.map (fun c => if c = ':' then ' ' else c)))).map lowerChar)
  rw [hcore]

/-! ### Claim C2 -/

/-- C2 counterexample: the claim's normalization (colons removed)
predicts no knowledge-base match for the title `a:b` against the file
`a b.txt`, but the code (which replaces each colon by a space) resolves
it to that file. -/
theorem c2_counterexample :
    find_kb_file_by_title "a:b" (some ["a b.txt"]) = some "a b.txt" ∧
    claim_resolve_kb_removing "a:b" (some ["a b.txt"]) = none := by
  constructor
  · decide
  · decide

/-- C2 amended: knowledge-base resolution normalizes the raw title by
replacing each colon with a space, collapsing whitespace runs to a
single space, trimming and lowercasing (equivalently: joining the
whitespace-separated words of the colon-replaced title by single
spaces, lower-cased), and returns the first directory file whose
identically normalized base name starts with the normalized target;
with no such file the result is `none`. -/
theorem c2_amended_kb_resolution :
    ∀ (raw_title : String) (dir : Option (List String)),
      find_kb_file_by_title raw_title dir = spec_resolve_kb raw_title dir := by
  intro raw dir
  cases dir with
  | none => rfl
  | some files =>
    show files.find? (kb_match (normalize_title_for_match raw)) =
      files.find? (fun f =>
        startsWithB (spec_normalize_kb raw).data (spec_normalize_kb (stem f)).data)
    have hp : kb_match (normalize_title_for_match raw) =
        (fun f => startsWithB (spec_normalize_kb raw).data
          (spec_normalize_kb (stem f)).data) := by
      funext f
      show startsWithB (normalize_title_for_match raw).data
          (normalize_title_for_match (stem f)).data = _
      rw [normalize_eq_spec raw, normalize_eq_spec (stem f)]
    rw [hp]

end PromptEditor
